import Mathlib

/-!
Verification development for the Video2Text repository.

The pipeline (audio chunk splitting, per-chunk transcription, timestamp
formatting, screenshot sampling, text-correction fallback, transcript
rendering, and the job ledger's progress updates) is shallowly embedded
below.  Machine floats become exact rationals, Python ints become `Int`,
strings become Lean `String`s, subprocess and model-call outcomes become
explicit oracle parameters, and fallible operations return `Except`.
-/

/- ### Decimal rendering primitives (modelling Python's int formatting) -/

/-- The character for a single decimal digit `d < 10`. -/
def digitChar (d : Nat) : Char := Char.ofNat (48 + d)

/-- Fuel-driven decimal digit expansion (most significant digit first). -/
def natDigitsGo : Nat → Nat → List Char
  | 0, _ => []
  | fuel + 1, n =>
    if n < 10 then [digitChar n]
    else natDigitsGo fuel (n / 10) ++ [digitChar (n % 10)]

/-- Decimal digits of a natural number, as Python's str/%d prints them. -/
def natDigits (n : Nat) : List Char := natDigitsGo (n + 1) n

/-- Decimal rendering of a natural number. -/
def natStr (n : Nat) : String := String.mk (natDigits n)

/-- Decimal rendering of an integer (with a leading minus sign). -/
def intStr (i : Int) : String :=
  if i < 0 then "-" ++ natStr i.natAbs else natStr i.toNat

/-- Reads a digit string back to its value (left inverse of `natDigits`). -/
def digitsVal (l : List Char) : Nat :=
  l.foldl (fun a c => 10 * a + (c.toNat - 48)) 0

/-- Python's `%02d`: pad to two digits with a leading zero. -/
def pad2c (n : Nat) : List Char :=
  if n < 10 then '0' :: natDigits n else natDigits n

/-- String form of `pad2c`. -/
def pad2 (n : Nat) : String := String.mk (pad2c n)

/-- Left-pad a character list with zeros up to width `w`. -/
def leftPadZeros (w : Nat) (l : List Char) : List Char :=
  List.replicate (w - l.length) '0' ++ l

/-- Python's `%06d` formatting of an integer (sign counts toward the width). -/
def pyFmt06d (i : Int) : String :=
  if i < 0 then "-" ++ String.mk (leftPadZeros 5 (natDigits i.natAbs))
  else String.mk (leftPadZeros 6 (natDigits i.toNat))

/-- Python's `int()` applied to a real number: truncation toward zero. -/
def pyInt (q : ℚ) : Int := if 0 ≤ q then ⌊q⌋ else ⌈q⌉

/- ### Timestamp formatting -/

/-- The `H:MM:SS` trailer of `str(datetime.timedelta(...))` for the
within-day remainder `rem < 86400`: hours unpadded, minutes and seconds
zero-padded to two digits. -/
def hmsCore (rem : Nat) : String :=
  natStr (rem / 3600) ++ ":" ++ pad2 (rem % 3600 / 60) ++ ":" ++ pad2 (rem % 60)

/-- `str(datetime.timedelta(seconds = s))` for an integral number of
seconds: Python normalises to `days` (floor division) plus a remainder
in `[0, 86400)`, prints a `D day(s), ` head when `days ≠ 0`, then the
`H:MM:SS` trailer. -/
def timedeltaStr (s : Int) : String :=
  let days : Int := Int.fdiv s 86400
  let rem : Nat := (s - 86400 * days).toNat
  (if days = 0 then ""
   else intStr days ++ (if days = 1 ∨ days = -1 then " day, " else " days, ")) ++
  hmsCore rem

/-- `format_timestamp` from `modules/utils.py` (identical in
`video_to_text.py`): `str(datetime.timedelta(seconds=int(seconds)))`. -/
def format_timestamp (seconds : ℚ) : String := timedeltaStr (pyInt seconds)

/-- Spec-side renderer for claim C5, following the spec's words: the
standard hours:minutes:seconds duration rendering of a number of seconds,
with no leading zero on the hours field. -/
def hmsRender (n : Nat) : String :=
  natStr (n / 3600) ++ ":" ++ pad2 (n % 3600 / 60) ++ ":" ++ pad2 (n % 60)

/- ### Screenshot sampling predicate and paths -/

/-- The sampling test `int(segment_start) % timestamp_interval < 5` from
`modules/transcriber.py` (identical in `video_to_text.py`).  Python's `%`
on ints with a positive modulus is `Int.emod`; the model presumes
`interval ≠ 0` (Python would raise `ZeroDivisionError` there). -/
def shouldCapture (t : ℚ) (interval : Nat) : Bool :=
  decide (pyInt t % (interval : Int) < 5)

/-- The temp screenshot path `screenshots/screenshot_{int(t):06d}.jpg`. -/
def shotPath (t : ℚ) : String :=
  "screenshots/screenshot_" ++ pyFmt06d (pyInt t) ++ ".jpg"

/- ### Chunk splitter (`split_audio_into_chunks`) -/

/-- The chunk file name `chunk_{i:03d}.wav`. -/
def chunkName (i : Nat) : String :=
  "chunk_" ++ String.mk (leftPadZeros 3 (natDigits i)) ++ ".wav"

/-- `split_audio_into_chunks` from `modules/utils.py` (the CLI copy in
`video_to_text.py` is the same computation): the probed `duration` and
the configured `chunk_duration` give `num_chunks = int(duration /
chunk_duration) + 1`, then one file and one start offset
`i * chunk_duration` per index `i` in `range(num_chunks)`. -/
def split_audio_into_chunks (duration : ℚ) (chunk_duration : Nat) :
    List String × List ℚ :=
  let num_chunks : Int := pyInt (duration / (chunk_duration : ℚ)) + 1
  let idxs := List.range num_chunks.toNat
  (idxs.map chunkName, idxs.map fun i : ℕ => (i : ℚ) * (chunk_duration : ℚ))

/- ### The transcription pipeline (`modules/transcriber.py::process_video`) -/

/-- One Whisper segment, as the pipeline consumes it: its start offset in
seconds relative to the chunk, its text, and (as an environment oracle)
whether an ffmpeg frame capture at its absolute offset would succeed. -/
structure Seg where
  start : ℚ
  text : String
  shotOk : Bool
  deriving DecidableEq, Repr

/-- The observable state threaded through `process_video`: the
accumulated `timestamped_chunks`, the `screenshots` dict (association
list with Python-dict overwrite semantics), an audit log of dict writes,
an audit log of `extract_screenshot` invocations (by timestamp label),
and the sequence of progress values handed to the progress callback. -/
structure PVState where
  transcript : List (String × String)
  screenshots : List (String × String)
  writes : List (String × String)
  attempts : List String
  progress : List ℚ
  deriving DecidableEq, Repr

/-- Python's `str.strip()`: drop leading and trailing whitespace. -/
def pyStrip (s : String) : String :=
  String.mk
    (((s.data.dropWhile Char.isWhitespace).reverse.dropWhile Char.isWhitespace).reverse)

/-- Python dict assignment `d[k] = v`: overwrite in place when the key is
present, append otherwise. -/
def dictInsert (m : List (String × String)) (k v : String) :
    List (String × String) :=
  if m.any (fun e => e.1 == k) then
    m.map (fun e => if e.1 == k then (e.1, v) else e)
  else m ++ [(k, v)]

/-- The per-segment body of `process_video`'s loop: skip empty (stripped)
text; otherwise format the label, attempt a screenshot when the sampling
test fires (recording the dict write only when ffmpeg succeeds), and
append the `(timestamp, text)` entry. -/
def processSegment (interval : Nat) (startTime : ℚ) (st : PVState) (s : Seg) :
    PVState :=
  let segment_start := s.start + startTime
  let segment_text := pyStrip s.text
  if segment_text = "" then st
  else
    let timestamp := format_timestamp segment_start
    let st' :=
      if shouldCapture segment_start interval then
        let path := shotPath segment_start
        let st1 : PVState := { st with attempts := st.attempts ++ [timestamp] }
        if s.shotOk then
          { st1 with screenshots := dictInsert st1.screenshots timestamp path,
                     writes := st1.writes ++ [(timestamp, path)] }
        else st1
      else st
    { st' with transcript := st'.transcript ++ [(timestamp, segment_text)] }

/-- The per-chunk body of `process_video`'s loop: report
`25 + i * progress_per_chunk`, then either skip the chunk (transcription
raised; `except: continue`) or process its segments and report
`current_progress + progress_per_chunk / 2`. -/
def processChunk (chunkDur interval : Nat) (p : ℚ) (st : PVState)
    (ic : Nat × Option (List Seg)) : PVState :=
  let cur : ℚ := 25 + (ic.1 : ℚ) * p
  let st0 : PVState := { st with progress := st.progress ++ [cur] }
  match ic.2 with
  | none => st0
  | some segs =>
    let st1 := segs.foldl (processSegment interval ((ic.1 : ℚ) * (chunkDur : ℚ))) st0
    { st1 with progress := st1.progress ++ [cur + p / 2] }

/-- `process_video` after the split step: progress 0/5/10/15/20 for the
fixed stages, `progress_per_chunk = 70 / len(chunks)`, the chunk loop,
progress 90, the persistent-copy step (each copy may fail, dropping that
entry; `e.2.drop 12` is `os.path.basename` for the `screenshots/`-prefixed
temp paths), and progress 95.  `chunks` holds one transcription outcome
per chunk: `none` when Whisper raised, `some segs` otherwise. -/
def process_video (job_id : String) (chunks : List (Option (List Seg)))
    (chunkDur interval : Nat) (copyOk : String → Bool) : PVState :=
  let st0 : PVState := ⟨[], [], [], [], [0, 5, 10, 15, 20]⟩
  let p : ℚ := if chunks.length > 0 then 70 / (chunks.length : ℚ) else 0
  let st1 := (chunks.enum).foldl (processChunk chunkDur interval p) st0
  let st2 : PVState := { st1 with progress := st1.progress ++ [90] }
  let persistent := (st2.screenshots.filter fun e => copyOk e.1).map
      (fun e => (e.1, "output/" ++ job_id ++ "/" ++ e.2.drop 12))
  { st2 with screenshots := persistent, progress := st2.progress ++ [95] }

/-- The final job-ledger record fields written by
`app.py::process_video_thread` on its success path. -/
structure JobRecord where
  status : String
  progress : List ℚ
  num_segments : Nat
  num_screenshots : Nat
  deriving Repr

/-- `app.py::process_video_thread` around `process_video`: an initial
progress 0 ("Starting processing..."), the pipeline's own callbacks, then
95 ("Saving text transcript..."), 98 ("Creating PDF..."), and the final
Completed record with progress 100, `num_segments =
len(timestamped_chunks)` and `num_screenshots = len(screenshots)`. -/
def process_video_thread (job_id : String) (chunks : List (Option (List Seg)))
    (chunkDur interval : Nat) (copyOk : String → Bool) : JobRecord :=
  let st := process_video job_id chunks chunkDur interval copyOk
  { status := "Completed"
    progress := 0 :: (st.progress ++ [95, 98, 100])
    num_segments := st.transcript.length
    num_screenshots := st.screenshots.length }

/- ### Screenshot extraction (`extract_screenshot`, both variants) -/

/-- The environment of one frame-capture invocation: whether the source
video file exists, whether ffmpeg exits with status zero, and whether the
output file exists afterwards and its size. -/
structure FfmpegEnv where
  videoExists : Bool
  exitZero : Bool
  outputExists : Bool
  outputSize : Nat
  deriving DecidableEq, Repr

/-- `extract_screenshot` from `modules/utils.py`: a missing video raises
`FileNotFoundError`; a non-zero ffmpeg exit (`CalledProcessError`) is
caught and returns `False`; a missing or empty output file returns
`False`; otherwise `True`. -/
def extract_screenshot (env : FfmpegEnv) : Except String Bool :=
  if env.videoExists = false then
    Except.error "FileNotFoundError: Video file not found"
  else if env.exitZero = false then Except.ok false
  else if env.outputExists = false ∨ env.outputSize = 0 then Except.ok false
  else Except.ok true

/-- `extract_screenshot` from `video_to_text.py`: `subprocess.run(cmd,
check=True)` with no `try`, so a non-zero ffmpeg exit raises
`CalledProcessError` out of the function; only the output-file check
returns `False`. -/
def extract_screenshot_cli (env : FfmpegEnv) : Except String Bool :=
  if env.exitZero = false then Except.error "CalledProcessError"
  else if env.outputExists = false ∨ env.outputSize = 0 then Except.ok false
  else Except.ok true

/- ### Text correction (`improve_transcription_with_ollama`) -/

/-- `improve_transcription_with_ollama` from `video_to_text.py`.
`generate` is the outcome of the `ollama.generate` call (a response or an
exception).  Empty input raises `ValueError` before the call; any
exception from the call itself is caught and the original transcription
is returned. -/
def improve_transcription_with_ollama (transcription : String)
    (generate : Except String String) : Except String String :=
  if transcription = "" then
    Except.error "ValueError: No valid transcription to improve"
  else
    match generate with
    | Except.ok response => Except.ok response
    | Except.error _ => Except.ok transcription

/-- The call site in `video_to_text.py::main`'s segment loop: when Ollama
is not skipped, `improve_transcription_with_ollama` is attempted and any
exception it raises is caught, keeping the original segment text. -/
def cliImproveStep (skip_ollama : Bool) (generate : Except String String)
    (segment_text : String) : String :=
  if skip_ollama then segment_text
  else
    match improve_transcription_with_ollama segment_text generate with
    | Except.ok improved => improved
    | Except.error _ => segment_text

/-- The texts the CLI segment loop appends to the transcript, as a
function of the per-segment `ollama.generate` outcomes. -/
def cliSegmentTexts (skip_ollama : Bool) (generate : String → Except String String)
    (texts : List String) : List String :=
  texts.map fun t => cliImproveStep skip_ollama (generate t) t

/- ### Plain-text transcript rendering and the round-trip parser -/

/-- `save_transcript_to_text` from `modules/pdf_generator.py`: each
`(timestamp, text)` pair is appended to the file as
`[timestamp] text` followed by a blank line, in order. -/
def save_transcript_to_text (timestamped_chunks : List (String × String)) : String :=
  timestamped_chunks.foldl
    (fun acc e => acc ++ "[" ++ e.1 ++ "] " ++ e.2 ++ "\n\n") ""

/-- Reads a timestamp label: the characters up to the first `]`. -/
def readLabel : List Char → Option (List Char × List Char)
  | [] => none
  | c :: r =>
    if c = ']' then some ([], r)
    else (readLabel r).map fun p => (c :: p.1, p.2)

/-- Reads a block's text: the characters up to the first blank line. -/
def readText : List Char → Option (List Char × List Char)
  | [] => none
  | [_] => none
  | a :: b :: r =>
    if a = '\n' ∧ b = '\n' then some ([], r)
    else (readText (b :: r)).map fun p => (a :: p.1, p.2)

/-- Fuelled entry reader: each blank-line-delimited block must have the
form `[timestamp] text`.  The fuel only bounds the number of entries. -/
def parseEntriesFuel : Nat → List Char → Option (List (List Char × List Char))
  | _, [] => some []
  | 0, _ :: _ => none
  | fuel + 1, c :: rest =>
    if c = '[' then
      match readLabel rest with
      | some (ts, r1) =>
        match r1 with
        | ' ' :: r2 =>
          match readText r2 with
          | some (tx, r3) =>
            match parseEntriesFuel fuel r3 with
            | some es => some ((ts, tx) :: es)
            | none => none
          | none => none
        | _ => none
      | none => none
    else none

/-- The parser described by claim C9's round-trip: split the rendered
output into blank-line-delimited `[timestamp] text` blocks, recovering
the ordered pair sequence (or failing on a malformed block). -/
def parseTranscript (s : String) : Option (List (String × String)) :=
  (parseEntriesFuel s.data.length s.data).map
    (List.map fun p => (String.mk p.1, String.mk p.2))

/-- The character-list image of the renderer, used to reason about the
round trip: `[ts] tx` then a blank line, per pair. -/
def renderData : List (String × String) → List Char
  | [] => []
  | e :: rest =>
    '[' :: (e.1.data ++ ']' :: ' ' :: (e.2.data ++ '\n' :: '\n' :: renderData rest))

/-- `true` when a character list has no two adjacent newlines (no blank
line). -/
def noBlank : List Char → Bool
  | [] => true
  | [_] => true
  | a :: b :: r => !(a == '\n' && b == '\n') && noBlank (b :: r)

/- ### General helper lemmas -/

/-- Two strings with the same character data are equal. -/
theorem string_data_eq {s t : String} (h : s.data = t.data) : s = t := by
  cases s
  cases t
  exact congrArg String.mk h

/-- Invariant preservation along a left fold. -/
theorem foldl_invariant {α β : Type} (f : β → α → β) (P : β → Prop) (Q : α → Prop) :
    ∀ (l : List α) (st : β), P st → (∀ a ∈ l, Q a) →
      (∀ st a, P st → Q a → P (f st a)) → P (l.foldl f st) := by
  intro l
  induction l with
  | nil => intro st hP _ _; exact hP
  | cons a l ih =>
    intro st hP hQ hstep
    exact ih (f st a) (hstep st a hP (hQ a (List.mem_cons_self a l)))
      (fun x hx => hQ x (List.mem_cons_of_mem a hx)) hstep

/-- `pyInt` is the floor on non-negative inputs. -/
theorem pyInt_of_nonneg {q : ℚ} (h : 0 ≤ q) : pyInt q = ⌊q⌋ := if_pos h

/- ### C1: chunk splitter layout -/

/-- C1.  For every positive chunk duration `D` and non-negative probed
duration `L`, the splitter produces exactly `⌊L/D⌋ + 1` chunks, the
`i`-th start offset is `i * D`, and on an exact multiple `L = k * D`
the final (empty-duration) chunk starts at `L` itself. -/
theorem chunk_splitter_layout (D : ℕ) (L : ℚ) (hD : 0 < D) (hL : 0 ≤ L) :
    (((split_audio_into_chunks L D).2.length : ℤ) = ⌊L / (D : ℚ)⌋ + 1)
    ∧ (∀ i : ℕ, ∀ h : i < (split_audio_into_chunks L D).2.length,
        (split_audio_into_chunks L D).2.get ⟨i, h⟩ = (i : ℚ) * (D : ℚ))
    ∧ (∀ k : ℕ, L = (k : ℚ) * (D : ℚ) →
        (split_audio_into_chunks L D).2.getLast? = some L) := by
  have hD0 : (0 : ℚ) < (D : ℚ) := by exact_mod_cast hD
  have hdiv : (0 : ℚ) ≤ L / (D : ℚ) := div_nonneg hL (le_of_lt hD0)
  have hpy : pyInt (L / (D : ℚ)) = ⌊L / (D : ℚ)⌋ := pyInt_of_nonneg hdiv
  have hfl : 0 ≤ ⌊L / (D : ℚ)⌋ := Int.floor_nonneg.mpr hdiv
  have key : (split_audio_into_chunks L D).2 =
      (List.range (⌊L / (D : ℚ)⌋ + 1).toNat).map (fun j : ℕ => (j : ℚ) * (D : ℚ)) := by
    simp only [split_audio_into_chunks, hpy]
  refine ⟨?_, ?_, ?_⟩
  · rw [key]
    simp only [List.length_map, List.length_range]
    have h1 : 0 ≤ ⌊L / (D : ℚ)⌋ + 1 := by omega
    exact Int.toNat_of_nonneg h1
  · intro i h
    rw [List.get_eq_getElem]
    simp only [key, List.getElem_map, List.getElem_range]
  · intro k hk
    subst hk
    have hLD : ((k : ℚ) * (D : ℚ)) / (D : ℚ) = (k : ℚ) :=
      mul_div_cancel_right₀ _ (ne_of_gt hD0)
    have hk2 : ⌊((k : ℚ) * (D : ℚ)) / (D : ℚ)⌋ = (k : ℤ) := by
      rw [hLD]; exact Int.floor_natCast k
    have hN : ((k : ℤ) + 1).toNat = k + 1 := by omega
    rw [key, hk2, hN, List.getLast?_eq_getElem?]
    simp only [List.length_map, List.length_range, Nat.add_sub_cancel,
      List.getElem?_map]
    rw [List.getElem?_range (by omega : k < k + 1)]
    rfl

/-- Witness for C1 at the spec's own scenario: a 125-second audio with
60-second chunks gives `⌊125/60⌋ + 1 = 3` chunks. -/
theorem chunk_splitter_layout_witness :
    (((split_audio_into_chunks 125 60).2.length : ℤ) = ⌊(125 : ℚ) / (60 : ℚ)⌋ + 1)
    ∧ (split_audio_into_chunks 125 60).2 = [0, 60, 120] := by
  refine ⟨(chunk_splitter_layout 60 125 (by norm_num) (by norm_num)).1, ?_⟩
  have h : pyInt ((125 : ℚ) / ((60 : ℕ) : ℚ)) = 2 := by
    rw [pyInt_of_nonneg (by positivity)]
    push_cast
    norm_num
  simp only [split_audio_into_chunks, h]
  have h3 : Int.toNat 3 = 3 := rfl
  norm_num [h3, List.range_succ]

/- ### C3: the screenshot sampling predicate -/

/-- `shouldCapture` agrees with the spec's predicate on non-negative
offsets. -/
theorem shouldCapture_eq_floor {t : ℚ} (ht : 0 ≤ t) (i : ℕ) :
    shouldCapture t i = decide (⌊t⌋ % (i : ℤ) < 5) := by
  unfold shouldCapture
  rw [pyInt_of_nonneg ht]

/-- C3.  For a non-empty segment at non-negative absolute offset `t`, the
pipeline attempts a frame capture if and only if `⌊t⌋ % interval < 5`
(the predicate is a pure function of `t` and the interval), and the
boundary residues behave as the spec requires: residues 0 and 4 capture,
residues 5 and `interval - 1` do not (for any interval of at least 6). -/
theorem screenshot_sampling_rule :
    (∀ (interval : ℕ) (startTime : ℚ) (st : PVState) (s : Seg),
      0 < interval → 0 ≤ s.start + startTime → pyStrip s.text ≠ "" →
      (processSegment interval startTime st s).attempts =
        st.attempts ++
          (if ⌊s.start + startTime⌋ % (interval : ℤ) < 5
           then [format_timestamp (s.start + startTime)] else []))
    ∧ (∀ i k : ℕ, 6 ≤ i →
        shouldCapture ((k : ℚ) * (i : ℚ)) i = true
        ∧ shouldCapture ((k : ℚ) * (i : ℚ) + 4) i = true
        ∧ shouldCapture ((k : ℚ) * (i : ℚ) + 5) i = false
        ∧ shouldCapture ((k : ℚ) * (i : ℚ) + ((i : ℚ) - 1)) i = false) := by
  constructor
  · intro interval startTime st s _ ht htext
    have hcap := shouldCapture_eq_floor ht interval
    by_cases hc : ⌊s.start + startTime⌋ % (interval : ℤ) < 5
    · cases hsk : s.shotOk <;>
        simp [processSegment, htext, hcap, hc, hsk]
    · simp [processSegment, htext, hcap, hc]
  · intro i k hi
    have cast1 : ∀ r : ℕ, ((k : ℚ) * (i : ℚ) + (r : ℚ)) = ((k * i + r : ℕ) : ℚ) := by
      intro r; push_cast; ring
    have hfl : ∀ r : ℕ, ⌊(k : ℚ) * (i : ℚ) + (r : ℚ)⌋ = ((k * i + r : ℕ) : ℤ) := by
      intro r; rw [cast1 r]; exact Int.floor_natCast _
    have hmod : ∀ r : ℕ, r < i → (((k * i + r : ℕ) : ℤ)) % (i : ℤ) = (r : ℤ) := by
      intro r hr
      push_cast
      have h1 : ((r : ℤ) + (i : ℤ) * (k : ℤ)) % (i : ℤ) = (r : ℤ) % (i : ℤ) :=
        Int.add_mul_emod_self_left (r : ℤ) (i : ℤ) (k : ℤ)
      have h2 : ((k : ℤ) * (i : ℤ) + (r : ℤ)) = ((r : ℤ) + (i : ℤ) * (k : ℤ)) := by ring
      rw [h2, h1, Int.emod_eq_of_lt (by omega) (by exact_mod_cast hr)]
    have hnn : ∀ r : ℕ, (0 : ℚ) ≤ (k : ℚ) * (i : ℚ) + (r : ℚ) := by
      intro r; positivity
    refine ⟨?_, ?_, ?_, ?_⟩
    · have h0 := hnn 0
      simp only [Nat.cast_zero, add_zero] at h0
      rw [show ((k : ℚ) * (i : ℚ)) = ((k : ℚ) * (i : ℚ) + (0 : ℕ)) by push_cast; ring]
      rw [shouldCapture_eq_floor (hnn 0) i, hfl 0, hmod 0 (by omega)]
      decide
    · rw [show ((4 : ℚ)) = ((4 : ℕ) : ℚ) by norm_num,
        shouldCapture_eq_floor (hnn 4) i, hfl 4, hmod 4 (by omega)]
      decide
    · rw [show ((5 : ℚ)) = ((5 : ℕ) : ℚ) by norm_num,
        shouldCapture_eq_floor (hnn 5) i, hfl 5, hmod 5 (by omega)]
      decide
    · have hcast : ((i : ℚ) - 1) = ((i - 1 : ℕ) : ℚ) := by
        have : (1 : ℕ) ≤ i := by omega
        push_cast [this]
        ring
      rw [hcast, shouldCapture_eq_floor (hnn (i - 1)) i, hfl (i - 1),
        hmod (i - 1) (by omega)]
      simp only [decide_eq_false_iff_not, not_lt]
      exact_mod_cast (by omega : (5 : ℕ) ≤ i - 1)

/- ### C7: text-correction failure falls back to the original text -/

/-- C7.  If the `ollama.generate` call fails, the correction stage
returns the original text unchanged; the CLI call site never aborts (it
also catches the empty-input `ValueError`); and with every generate call
failing, the assembled segment texts equal the raw recognition output
verbatim. -/
theorem ollama_failure_fallback :
    (∀ (t e : String), t ≠ "" →
      improve_transcription_with_ollama t (Except.error e) = Except.ok t)
    ∧ (∀ (t e : String), cliImproveStep false (Except.error e) t = t)
    ∧ (∀ (texts : List String) (errOf : String → String),
        cliSegmentTexts false (fun t => Except.error (errOf t)) texts = texts) := by
  have h1 : ∀ (t e : String), t ≠ "" →
      improve_transcription_with_ollama t (Except.error e) = Except.ok t := by
    intro t e ht
    simp [improve_transcription_with_ollama, ht]
  have h2 : ∀ (t e : String), cliImproveStep false (Except.error e) t = t := by
    intro t e
    by_cases ht : t = ""
    · subst ht
      simp [cliImproveStep, improve_transcription_with_ollama]
    · simp [cliImproveStep, h1 t e ht]
  refine ⟨h1, h2, ?_⟩
  intro texts errOf
  simp [cliSegmentTexts, h2]

/-- Witness for C7 at concrete inputs. -/
theorem ollama_failure_fallback_witness :
    improve_transcription_with_ollama "hello" (Except.error "conn refused") =
      Except.ok "hello"
    ∧ cliSegmentTexts false (fun _ => Except.error "conn refused") ["a", "b"] =
        ["a", "b"] :=
  ⟨ollama_failure_fallback.1 "hello" "conn refused" (by decide),
   ollama_failure_fallback.2.2 ["a", "b"] (fun _ => "conn refused")⟩

/- ### C8: screenshot-capture failure handling -/

/-- C8 counterexample.  In the CLI implementation a non-zero ffmpeg exit
does not return `False`: it raises `CalledProcessError` out of
`extract_screenshot` (the claim says every such failure returns the
boolean false rather than raise). -/
theorem extract_screenshot_cli_raises :
    extract_screenshot_cli ⟨true, false, true, 1⟩ = Except.error "CalledProcessError"
    ∧ extract_screenshot_cli ⟨true, false, true, 1⟩ ≠ Except.ok false := by
  refine ⟨rfl, ?_⟩
  rw [show extract_screenshot_cli ⟨true, false, true, 1⟩ =
    Except.error "CalledProcessError" from rfl]
  simp

/-- C8 as amended.  In the module (web-app) implementation every capture
failure — non-zero exit, missing output, empty output — returns `ok
false`; in the CLI implementation only the missing/empty-output checks
return `ok false` while a non-zero exit raises; and a failed capture is
non-fatal to the pipeline: the segment's transcript entry is still
appended and no screenshot is recorded. -/
theorem extract_screenshot_failure_semantics :
    (∀ env : FfmpegEnv, env.videoExists = true →
      (env.exitZero = false ∨ env.outputExists = false ∨ env.outputSize = 0) →
      extract_screenshot env = Except.ok false)
    ∧ (∀ env : FfmpegEnv, env.exitZero = true →
        (env.outputExists = false ∨ env.outputSize = 0) →
        extract_screenshot_cli env = Except.ok false)
    ∧ (∀ env : FfmpegEnv, env.exitZero = false →
        extract_screenshot_cli env = Except.error "CalledProcessError")
    ∧ (∀ (interval : ℕ) (startTime : ℚ) (st : PVState) (s : Seg),
        s.shotOk = false → pyStrip s.text ≠ "" →
        (processSegment interval startTime st s).transcript =
          st.transcript ++ [(format_timestamp (s.start + startTime), pyStrip s.text)]
        ∧ (processSegment interval startTime st s).screenshots = st.screenshots) := by
  refine ⟨?_, ?_, ?_, ?_⟩
  · intro env hv hfail
    cases hez : env.exitZero
    · simp [extract_screenshot, hv, hez]
    · rcases hfail with h | h | h
      · rw [h] at hez; cases hez
      · simp [extract_screenshot, hv, hez, h]
      · simp [extract_screenshot, hv, hez, h]
  · intro env hez hfail
    rcases hfail with h | h <;> simp [extract_screenshot_cli, hez, h]
  · intro env hez
    simp [extract_screenshot_cli, hez]
  · intro interval startTime st s hsk htext
    constructor <;>
      by_cases hc : shouldCapture (s.start + startTime) interval <;>
        simp [processSegment, htext, hc, hsk]

/-- Witness for C8's amended statement at concrete inputs. -/
theorem extract_screenshot_failure_semantics_witness :
    extract_screenshot ⟨true, false, true, 1⟩ = Except.ok false
    ∧ extract_screenshot_cli ⟨true, true, false, 0⟩ = Except.ok false
    ∧ extract_screenshot_cli ⟨true, false, true, 1⟩ = Except.error "CalledProcessError"
    ∧ (processSegment 30 0 ⟨[], [], [], [], []⟩ ⟨30, "hello", false⟩).screenshots = [] :=
  ⟨extract_screenshot_failure_semantics.1 ⟨true, false, true, 1⟩ rfl (Or.inl rfl),
   extract_screenshot_failure_semantics.2.1 ⟨true, true, false, 0⟩ rfl (Or.inl rfl),
   extract_screenshot_failure_semantics.2.2.1 ⟨true, false, true, 1⟩ rfl,
   (extract_screenshot_failure_semantics.2.2.2 30 0 ⟨[], [], [], [], []⟩
     ⟨30, "hello", false⟩ rfl (by decide)).2⟩

/- ### C6: a failed chunk is skipped; the job still completes -/

/-- The number of non-empty (post-strip) segments in a chunk's segment
list — the entries the pipeline appends for that chunk. -/
def liveSegCount (segs : List Seg) : ℕ :=
  segs.countP (fun s => !(pyStrip s.text == ""))

/-- Per-chunk contribution to `num_segments`: a failed chunk contributes
nothing. -/
def chunkLive : Option (List Seg) → ℕ
  | none => 0
  | some segs => liveSegCount segs

/-- A segment adds one transcript entry exactly when its stripped text is
non-empty. -/
theorem processSegment_transcript_len (interval : ℕ) (t : ℚ) (st : PVState) (s : Seg) :
    (processSegment interval t st s).transcript.length =
      st.transcript.length + (if pyStrip s.text = "" then 0 else 1) := by
  by_cases h : pyStrip s.text = ""
  · simp [processSegment, h]
  · by_cases hc : shouldCapture (s.start + t) interval <;>
      cases hsk : s.shotOk <;> simp [processSegment, h, hc, hsk]

/-- Folding a chunk's segments adds its live-segment count. -/
theorem foldl_processSegment_transcript_len (interval : ℕ) (t : ℚ) :
    ∀ (segs : List Seg) (st : PVState),
      (segs.foldl (processSegment interval t) st).transcript.length =
        st.transcript.length + liveSegCount segs := by
  intro segs
  induction segs with
  | nil => intro st; simp [liveSegCount]
  | cons s rest ih =>
    intro st
    rw [List.foldl_cons, ih, processSegment_transcript_len]
    simp only [liveSegCount, List.countP_cons]
    by_cases h : pyStrip s.text = "" <;> simp [h, liveSegCount] <;> omega

/-- One chunk adds `chunkLive` entries to the transcript. -/
theorem processChunk_transcript_len (chunkDur interval : ℕ) (p : ℚ) (st : PVState)
    (ic : ℕ × Option (List Seg)) :
    (processChunk chunkDur interval p st ic).transcript.length =
      st.transcript.length + chunkLive ic.2 := by
  rcases ic with ⟨i, oc⟩
  cases oc with
  | none => simp [processChunk, chunkLive]
  | some segs => simp [processChunk, chunkLive, foldl_processSegment_transcript_len]

/-- The chunk loop adds the chunks' live-segment counts. -/
theorem foldl_processChunk_transcript_len (chunkDur interval : ℕ) (p : ℚ) :
    ∀ (l : List (ℕ × Option (List Seg))) (st : PVState),
      (l.foldl (processChunk chunkDur interval p) st).transcript.length =
        st.transcript.length + (l.map (fun ic => chunkLive ic.2)).sum := by
  intro l
  induction l with
  | nil => intro st; simp
  | cons a l ih =>
    intro st
    rw [List.foldl_cons, ih, processChunk_transcript_len]
    simp only [List.map_cons, List.sum_cons]
    omega

/-- `process_video` produces exactly the surviving chunks' non-empty
segment entries. -/
theorem process_video_num_segments (job : String) (chunks : List (Option (List Seg)))
    (chunkDur interval : ℕ) (copyOk : String → Bool) :
    (process_video job chunks chunkDur interval copyOk).transcript.length =
      (chunks.map chunkLive).sum := by
  have henum : chunks.enum.map (fun ic => chunkLive ic.2) = chunks.map chunkLive := by
    rw [show (fun ic : ℕ × Option (List Seg) => chunkLive ic.2) =
      chunkLive ∘ Prod.snd from rfl, ← List.map_map, List.enum_map_snd]
  simp only [process_video]
  rw [foldl_processChunk_transcript_len, henum]
  simp

/-- C6.  When one chunk's transcription raises and at least one other
chunk succeeds, the job record still reaches status Completed and its
`num_segments` counts exactly the surviving chunks' (non-empty) segments
— the failed chunk contributes nothing and is not retried. -/
theorem chunk_failure_skipped (job : String) (chunks : List (Option (List Seg)))
    (chunkDur interval : ℕ) (copyOk : String → Bool)
    (hfail : ∃ c ∈ chunks, c = none) (hsucc : ∃ c ∈ chunks, c ≠ none) :
    (process_video_thread job chunks chunkDur interval copyOk).status = "Completed"
    ∧ (process_video_thread job chunks chunkDur interval copyOk).num_segments =
        (chunks.map chunkLive).sum := by
  exact ⟨rfl, process_video_num_segments job chunks chunkDur interval copyOk⟩

/-- Witness for C6: three chunks, the middle one failing. -/
theorem chunk_failure_skipped_witness :
    (process_video_thread "job" [some [⟨0, "hello", false⟩], none,
        some [⟨1, "world", false⟩]] 300 30 (fun _ => true)).status = "Completed"
    ∧ (process_video_thread "job" [some [⟨0, "hello", false⟩], none,
        some [⟨1, "world", false⟩]] 300 30 (fun _ => true)).num_segments =
        ([some [⟨0, "hello", false⟩], none, some [⟨1, "world", false⟩]].map
          chunkLive).sum :=
  chunk_failure_skipped "job" _ 300 30 _
    ⟨none, by simp, rfl⟩ ⟨some [⟨0, "hello", false⟩], by simp, by simp⟩

/- ### C2: the progress sequence -/

/-- The progress values the chunk loop emits: `25 + i * p` when chunk `i`
starts, plus `25 + i * p + p / 2` when it succeeds. -/
def progChunkParts (p : ℚ) : List (ℕ × Option (List Seg)) → List ℚ
  | [] => []
  | ic :: rest =>
    (25 + (ic.1 : ℚ) * p) ::
      ((match ic.2 with
        | none => []
        | some _ => [25 + (ic.1 : ℚ) * p + p / 2]) ++ progChunkParts p rest)

/-- Segment processing never reports progress. -/
theorem processSegment_progress (interval : ℕ) (t : ℚ) (st : PVState) (s : Seg) :
    (processSegment interval t st s).progress = st.progress := by
  by_cases h : pyStrip s.text = ""
  · simp [processSegment, h]
  · by_cases hc : shouldCapture (s.start + t) interval <;>
      cases hsk : s.shotOk <;> simp [processSegment, h, hc, hsk]

/-- Folding a chunk's segments never reports progress. -/
theorem foldl_processSegment_progress (interval : ℕ) (t : ℚ) :
    ∀ (segs : List Seg) (st : PVState),
      (segs.foldl (processSegment interval t) st).progress = st.progress := by
  intro segs
  induction segs with
  | nil => intro st; rfl
  | cons s rest ih => intro st; rw [List.foldl_cons, ih, processSegment_progress]

/-- The chunk loop appends exactly `progChunkParts`. -/
theorem foldl_processChunk_progress (chunkDur interval : ℕ) (p : ℚ) :
    ∀ (l : List (ℕ × Option (List Seg))) (st : PVState),
      (l.foldl (processChunk chunkDur interval p) st).progress =
        st.progress ++ progChunkParts p l := by
  intro l
  induction l with
  | nil => intro st; simp [progChunkParts]
  | cons ic rest ih =>
    intro st
    rw [List.foldl_cons, ih]
    rcases ic with ⟨i, oc⟩
    cases oc with
    | none => simp [processChunk, progChunkParts]
    | some segs =>
      simp [processChunk, progChunkParts, foldl_processSegment_progress]

/-- Closed form of the full progress-value history a job's ledger sees:
the thread's initial 0, the pipeline's fixed stage values, the chunk
loop's values, then 90, 95 from the pipeline and 95, 98, 100 from the
thread. -/
theorem process_video_thread_progress (job : String) (chunks : List (Option (List Seg)))
    (chunkDur interval : ℕ) (copyOk : String → Bool) :
    (process_video_thread job chunks chunkDur interval copyOk).progress =
      0 :: (([0, 5, 10, 15, 20] ++
        progChunkParts (if chunks.length > 0 then 70 / (chunks.length : ℚ) else 0)
          chunks.enum) ++ ([90, 95] ++ [95, 98, 100])) := by
  simp only [process_video_thread, process_video]
  rw [foldl_processChunk_progress]
  simp

/-- C2 (evaluation at the failing input).  With 8 chunks all transcribing
successfully, the progress value reported after the last chunk is
`25 + 7·(70/8) + (70/8)/2 = 90.625`, after which the pipeline reports 90:
the progress sequence recorded in the job ledger is not monotonically
non-decreasing. -/
theorem progress_not_monotone_at_8_chunks :
    ¬ List.Chain' (· ≤ ·)
      (process_video_thread "job" (List.replicate 8 (some [])) 300 30
        (fun _ => true)).progress := by
  rw [process_video_thread_progress]
  have henum : (List.replicate 8 (some ([] : List Seg))).enum =
      [(0, some []), (1, some []), (2, some []), (3, some []), (4, some []),
       (5, some []), (6, some []), (7, some [])] := rfl
  rw [henum]
  simp only [List.length_replicate]
  norm_num [progChunkParts, List.chain'_append, List.chain'_cons]

/- ### C10: every screenshot key has a transcript entry -/

/-- Every screenshot key is the label of some transcript entry. -/
def ScreenKeysCovered (st : PVState) : Prop :=
  ∀ e ∈ st.screenshots, ∃ tx, (e.1, tx) ∈ st.transcript

/-- An entry of `dictInsert m k v` either has key `k` or the key of an
existing entry. -/
theorem dictInsert_mem {m : List (String × String)} {k v : String}
    {e : String × String} (h : e ∈ dictInsert m k v) :
    e.1 = k ∨ ∃ e0 ∈ m, e.1 = e0.1 := by
  unfold dictInsert at h
  by_cases hp : m.any (fun x => x.1 == k)
  · rw [if_pos hp] at h
    rcases List.mem_map.mp h with ⟨e0, he0, heq⟩
    by_cases hk : e0.1 = k
    · left
      rw [← heq]
      simp [hk]
    · right
      refine ⟨e0, he0, ?_⟩
      rw [← heq]
      simp [hk]
  · rw [if_neg hp] at h
    rcases List.mem_append.mp h with h | h
    · exact Or.inr ⟨e, h, rfl⟩
    · left
      rw [List.mem_singleton.mp h]
  
/-- `processSegment` on empty stripped text: a no-op. -/
theorem processSegment_empty (interval : ℕ) (t : ℚ) (st : PVState) (s : Seg)
    (htext : pyStrip s.text = "") : processSegment interval t st s = st := by
  simp [processSegment, htext]

/-- `processSegment` when the sampling test does not fire: only the
transcript entry is appended. -/
theorem processSegment_no_capture (interval : ℕ) (t : ℚ) (st : PVState) (s : Seg)
    (htext : ¬ pyStrip s.text = "")
    (hc : shouldCapture (s.start + t) interval = false) :
    processSegment interval t st s =
      { st with transcript :=
          st.transcript ++ [(format_timestamp (s.start + t), pyStrip s.text)] } := by
  simp [processSegment, htext, hc]

/-- `processSegment` when the sampling test fires but the capture fails:
the attempt is logged and the transcript entry appended. -/
theorem processSegment_capture_fail (interval : ℕ) (t : ℚ) (st : PVState) (s : Seg)
    (htext : ¬ pyStrip s.text = "")
    (hc : shouldCapture (s.start + t) interval = true) (hsk : s.shotOk = false) :
    processSegment interval t st s =
      { st with
        attempts := st.attempts ++ [format_timestamp (s.start + t)],
        transcript :=
          st.transcript ++ [(format_timestamp (s.start + t), pyStrip s.text)] } := by
  simp [processSegment, htext, hc, hsk]

/-- `processSegment` when the sampling test fires and the capture
succeeds: the attempt is logged, the dict write recorded, and the
transcript entry appended. -/
theorem processSegment_capture_ok (interval : ℕ) (t : ℚ) (st : PVState) (s : Seg)
    (htext : ¬ pyStrip s.text = "")
    (hc : shouldCapture (s.start + t) interval = true) (hsk : s.shotOk = true) :
    processSegment interval t st s =
      { st with
        screenshots := dictInsert st.screenshots (format_timestamp (s.start + t))
          (shotPath (s.start + t)),
        writes := st.writes ++ [(format_timestamp (s.start + t), shotPath (s.start + t))],
        attempts := st.attempts ++ [format_timestamp (s.start + t)],
        transcript :=
          st.transcript ++ [(format_timestamp (s.start + t), pyStrip s.text)] } := by
  simp [processSegment, htext, hc, hsk]

/-- `processSegment` preserves key coverage: a newly inserted key's
transcript entry is appended in the same step. -/
theorem processSegment_keys_covered (interval : ℕ) (t : ℚ) (st : PVState) (s : Seg)
    (h : ScreenKeysCovered st) : ScreenKeysCovered (processSegment interval t st s) := by
  by_cases htext : pyStrip s.text = ""
  · rw [processSegment_empty interval t st s htext]
    exact h
  · by_cases hc : shouldCapture (s.start + t) interval
    · cases hsk : s.shotOk
      · rw [processSegment_capture_fail interval t st s htext hc hsk]
        intro e he
        rcases h e he with ⟨tx, htx⟩
        exact ⟨tx, List.mem_append_left _ htx⟩
      · rw [processSegment_capture_ok interval t st s htext hc hsk]
        intro e he
        rcases dictInsert_mem he with hk | ⟨e0, he0, hk⟩
        · exact ⟨pyStrip s.text, by rw [hk]; exact List.mem_append_right _ (by simp)⟩
        · rcases h e0 he0 with ⟨tx, htx⟩
          exact ⟨tx, by rw [hk]; exact List.mem_append_left _ htx⟩
    · rw [processSegment_no_capture interval t st s htext (by simpa using hc)]
      intro e he
      rcases h e he with ⟨tx, htx⟩
      exact ⟨tx, List.mem_append_left _ htx⟩

/-- `processChunk` preserves key coverage. -/
theorem processChunk_keys_covered (chunkDur interval : ℕ) (p : ℚ) (st : PVState)
    (ic : ℕ × Option (List Seg)) (h : ScreenKeysCovered st) :
    ScreenKeysCovered (processChunk chunkDur interval p st ic) := by
  rcases ic with ⟨i, oc⟩
  cases oc with
  | none => exact h
  | some segs =>
    have hfold : ScreenKeysCovered
        (segs.foldl (processSegment interval ((i : ℚ) * (chunkDur : ℚ)))
          { st with progress := st.progress ++ [25 + (i : ℚ) * p] }) :=
      foldl_invariant _ ScreenKeysCovered (fun _ => True) segs _ h
        (fun _ _ => trivial)
        (fun st' s hst' _ => processSegment_keys_covered interval _ st' s hst')
    exact hfold

/-- C10.  Every timestamp label that keys the screenshots mapping
returned by `process_video` is also the label of at least one entry of
the returned transcript: a screenshot is only captured for a segment
whose (non-empty) transcript entry is then unconditionally appended. -/
theorem screenshots_keys_in_transcript (job : String)
    (chunks : List (Option (List Seg))) (chunkDur interval : ℕ)
    (copyOk : String → Bool) :
    ∀ e ∈ (process_video job chunks chunkDur interval copyOk).screenshots,
      ∃ tx, (e.1, tx) ∈ (process_video job chunks chunkDur interval copyOk).transcript := by
  have hfold : ScreenKeysCovered
      ((chunks.enum).foldl
        (processChunk chunkDur interval
          (if chunks.length > 0 then 70 / (chunks.length : ℚ) else 0))
        ⟨[], [], [], [], [0, 5, 10, 15, 20]⟩) :=
    foldl_invariant _ ScreenKeysCovered (fun _ => True) chunks.enum _
      (by intro e he; cases he) (fun _ _ => trivial)
      (fun st ic hst _ => processChunk_keys_covered chunkDur interval _ st ic hst)
  intro e he
  simp only [process_video] at he ⊢
  rcases List.mem_map.mp he with ⟨e0, he0, heq⟩
  have he1 := List.mem_of_mem_filter he0
  rcases hfold e0 he1 with ⟨tx, htx⟩
  exact ⟨tx, by rw [← heq]; exact htx⟩

/-- Witness for C10: a one-chunk run whose single segment (offset 30,
interval 30) captures a screenshot; its key has a transcript entry. -/
theorem screenshots_keys_in_transcript_witness :
    ∃ tx, (("0:00:30" : String), tx) ∈
      (process_video "j" [some [⟨30, "hello", true⟩]] 300 30 (fun _ => true)).transcript := by
  have hst : (30 : ℚ) + ((0 : ℕ) : ℚ) * ((300 : ℕ) : ℚ) = 30 := by norm_num
  have hc : shouldCapture ((30 : ℚ) + ((0 : ℕ) : ℚ) * ((300 : ℕ) : ℚ)) 30 = true := by
    rw [hst]; decide
  have htext : ¬ pyStrip "hello" = "" := by decide
  have henum : ([some [⟨30, "hello", true⟩]] : List (Option (List Seg))).enum =
      [(0, some [⟨30, "hello", true⟩])] := rfl
  have hrun : (process_video "j" [some [⟨30, "hello", true⟩]] 300 30
      (fun _ => true)).screenshots = [("0:00:30", "output/j/screenshot_000030.jpg")] := by
    simp only [process_video, henum, List.foldl_cons, List.foldl_nil, processChunk]
    rw [processSegment_capture_ok 30 _ _ ⟨30, "hello", true⟩ htext hc rfl]
    simp only [hst]
    simp [dictInsert]
    exact ⟨by decide, by decide⟩
  have hmem : (("0:00:30" : String), ("output/j/screenshot_000030.jpg" : String)) ∈
      (process_video "j" [some [⟨30, "hello", true⟩]] 300 30 (fun _ => true)).screenshots := by
    rw [hrun]
    simp
  exact screenshots_keys_in_transcript "j" [some [⟨30, "hello", true⟩]] 300 30
    (fun _ => true) ("0:00:30", "output/j/screenshot_000030.jpg") hmem

/-- Witness for C3: a segment at absolute offset 63 with interval 30
(63 % 30 = 3 < 5 fires), and boundary residue 0 at interval 30. -/
theorem screenshot_sampling_rule_witness :
    ((processSegment 30 0 ⟨[], [], [], [], []⟩ ⟨63, "hi", true⟩).attempts =
      ([] : List String) ++
        (if ⌊(63 : ℚ) + 0⌋ % ((30 : ℕ) : ℤ) < 5
         then [format_timestamp ((63 : ℚ) + 0)] else []))
    ∧ shouldCapture (((2 : ℕ) : ℚ) * ((30 : ℕ) : ℚ)) 30 = true :=
  ⟨screenshot_sampling_rule.1 30 0 ⟨[], [], [], [], []⟩ ⟨63, "hi", true⟩
      (by norm_num) (by norm_num) (by decide),
   (screenshot_sampling_rule.2 30 2 (by norm_num)).1⟩

/- ### C5: timestamp labels versus the H:MM:SS duration rendering -/

/-- `str(timedelta)` of a natural number of seconds, in day/remainder
form. -/
theorem timedeltaStr_natCast (m : ℕ) :
    timedeltaStr (m : ℤ) =
      (if m / 86400 = 0 then ""
       else natStr (m / 86400) ++ (if m / 86400 = 1 then " day, " else " days, ")) ++
      hmsCore (m % 86400) := by
  have hdays : Int.fdiv (m : ℤ) 86400 = ((m / 86400 : ℕ) : ℤ) := by
    rw [Int.fdiv_eq_tdiv (Int.natCast_nonneg m) (by norm_num)]
    rw [show ((86400 : ℤ)) = ((86400 : ℕ) : ℤ) by norm_num]
    exact (Int.ofNat_tdiv m 86400).symm
  have hrem : ((m : ℤ) - 86400 * ((m / 86400 : ℕ) : ℤ)).toNat = m % 86400 := by
    have h := Nat.div_add_mod m 86400
    omega
  have hneg : ¬(((m / 86400 : ℕ) : ℤ) = -1) := by omega
  have hone : (((m / 86400 : ℕ) : ℤ) = 1) ↔ m / 86400 = 1 := by omega
  have hzero : (((m / 86400 : ℕ) : ℤ) = 0) ↔ m / 86400 = 0 := by omega
  have hintStr : intStr ((m / 86400 : ℕ) : ℤ) = natStr (m / 86400) := by
    unfold intStr
    rw [if_neg (by omega)]
    congr 1
  simp only [timedeltaStr, hdays, hrem, hneg, hone, hzero, hintStr, or_false,
    iff_false, eq_iff_iff]

/-- Appending to the empty string is the identity. -/
theorem empty_append_str (s : String) : "" ++ s = s :=
  string_data_eq (by rw [String.data_append]; rfl)

/-- C5 counterexample.  At offset 86400 (24 hours) the code's label uses
Python timedelta's day form `1 day, 0:00:00`, not the hours:minutes:
seconds duration rendering `24:00:00` the claim requires for every
non-negative offset. -/
theorem format_timestamp_day_rollover :
    format_timestamp (86400 : ℚ) = "1 day, 0:00:00"
    ∧ hmsRender 86400 = "24:00:00"
    ∧ format_timestamp (86400 : ℚ) ≠ hmsRender 86400 :=
  ⟨by decide, by decide, by decide⟩

/-- C5 as amended.  For offsets below 24 hours (86400 seconds) the
timestamp label equals the standard H:MM:SS duration rendering of
`⌊t⌋` with no leading zero on the hours field. -/
theorem format_timestamp_eq_hmsRender (q : ℚ) (h0 : 0 ≤ q) (hlt : q < 86400) :
    format_timestamp q = hmsRender (⌊q⌋).toNat := by
  unfold format_timestamp
  rw [pyInt_of_nonneg h0]
  have hn0 : 0 ≤ ⌊q⌋ := Int.floor_nonneg.mpr h0
  have hlt' : ⌊q⌋ < 86400 := by
    by_contra hc
    push_neg at hc
    have h1 : ((86400 : ℤ) : ℚ) ≤ (⌊q⌋ : ℚ) := by exact_mod_cast hc
    have h2 : (⌊q⌋ : ℚ) ≤ q := Int.floor_le q
    norm_num at h1
    linarith
  have hcast : ⌊q⌋ = ((⌊q⌋.toNat : ℕ) : ℤ) := by omega
  rw [hcast, timedeltaStr_natCast]
  have hdiv0 : ⌊q⌋.toNat / 86400 = 0 := Nat.div_eq_of_lt (by omega)
  have hmod : ⌊q⌋.toNat % 86400 = ⌊q⌋.toNat := Nat.mod_eq_of_lt (by omega)
  rw [hdiv0, hmod]
  rw [if_pos rfl, empty_append_str]
  rfl

/-- Witness for C5's amended statement at the spec's own instance: an
offset of 63 seconds yields the label `0:01:03`. -/
theorem format_timestamp_eq_hmsRender_witness :
    format_timestamp (63 : ℚ) = "0:01:03" := by
  rw [format_timestamp_eq_hmsRender 63 (by norm_num) (by norm_num)]
  decide

/- ### C4: timestamp-label injectivity machinery -/

/-- Digit characters have the expected code points. -/
theorem digitChar_toNat : ∀ d, d < 10 → (digitChar d).toNat = 48 + d := by decide

/-- `digitsVal` peels the last digit. -/
theorem digitsVal_append_last (l : List Char) (c : Char) :
    digitsVal (l ++ [c]) = 10 * digitsVal l + (c.toNat - 48) := by
  unfold digitsVal
  rw [List.foldl_append]
  rfl

/-- Reading back the digits of `n` yields `n`. -/
theorem digitsVal_natDigitsGo : ∀ fuel n, n < fuel →
    digitsVal (natDigitsGo fuel n) = n := by
  intro fuel
  induction fuel with
  | zero => intro n h; omega
  | succ f ih =>
    intro n h
    by_cases h10 : n < 10
    · simp only [natDigitsGo, if_pos h10]
      unfold digitsVal
      simp only [List.foldl_cons, List.foldl_nil]
      rw [digitChar_toNat n h10]
      omega
    · simp only [natDigitsGo, if_neg h10]
      have hlt : n / 10 < f := by
        have := Nat.div_lt_self (show 0 < n by omega) (by norm_num : (1 : ℕ) < 10)
        omega
      rw [digitsVal_append_last, ih (n / 10) hlt,
        digitChar_toNat (n % 10) (Nat.mod_lt n (by norm_num))]
      omega

/-- `digitsVal` is a left inverse of `natDigits`. -/
theorem digitsVal_natDigits (n : ℕ) : digitsVal (natDigits n) = n :=
  digitsVal_natDigitsGo (n + 1) n (Nat.lt_succ_self n)

/-- Decimal digit strings determine the number. -/
theorem natDigits_inj {m n : ℕ} (h : natDigits m = natDigits n) : m = n := by
  have hm := digitsVal_natDigits m
  rw [h, digitsVal_natDigits] at hm
  omega

/-- Every character of a digit expansion is a decimal digit. -/
theorem natDigitsGo_chars : ∀ fuel n, n < fuel →
    ∀ c ∈ natDigitsGo fuel n, 48 ≤ c.toNat ∧ c.toNat ≤ 57 := by
  intro fuel
  induction fuel with
  | zero => intro n h; omega
  | succ f ih =>
    intro n h c hc
    by_cases h10 : n < 10
    · simp only [natDigitsGo, if_pos h10, List.mem_singleton] at hc
      subst hc
      rw [digitChar_toNat n h10]
      omega
    · simp only [natDigitsGo, if_neg h10] at hc
      rcases List.mem_append.mp hc with hc | hc
      · have hlt : n / 10 < f := by
          have := Nat.div_lt_self (show 0 < n by omega) (by norm_num : (1 : ℕ) < 10)
          omega
        exact ih (n / 10) hlt c hc
      · rw [List.mem_singleton] at hc
        subst hc
        rw [digitChar_toNat (n % 10) (Nat.mod_lt n (by norm_num))]
        omega

/-- Character bound for `natDigits`. -/
theorem natDigits_chars {n : ℕ} {c : Char} (hc : c ∈ natDigits n) :
    48 ≤ c.toNat ∧ c.toNat ≤ 57 :=
  natDigitsGo_chars (n + 1) n (Nat.lt_succ_self n) c hc

/-- The colon is never a digit character of `natDigits`. -/
theorem colon_not_mem_natDigits (n : ℕ) : (':') ∉ natDigits n := by
  intro hm
  have hb := natDigits_chars hm
  have h58 : (':').toNat = 58 := rfl
  omega

/-- The space is never a digit character of `natDigits`. -/
theorem space_not_mem_natDigits (n : ℕ) : (' ') ∉ natDigits n := by
  intro hm
  have hb := natDigits_chars hm
  have h32 : (' ').toNat = 32 := rfl
  omega

/-- Character bound for two-digit padding below 100. -/
theorem pad2c_chars : ∀ n, n < 100 → ∀ c ∈ pad2c n, 48 ≤ c.toNat ∧ c.toNat ≤ 57 := by
  decide

/-- Reading back a padded two-digit string below 100 yields the number. -/
theorem digitsVal_pad2c : ∀ n, n < 100 → digitsVal (pad2c n) = n := by
  decide

/-- Padded two-digit strings below 100 determine the number. -/
theorem pad2c_inj (m : ℕ) (hm : m < 100) (n : ℕ) (hn : n < 100)
    (h : pad2c m = pad2c n) : m = n := by
  have h1 := digitsVal_pad2c m hm
  rw [h, digitsVal_pad2c n hn] at h1
  omega

/-- The colon is not a character of `pad2c n` for `n < 100`. -/
theorem colon_not_mem_pad2c {n : ℕ} (hn : n < 100) : (':') ∉ pad2c n := by
  intro hm
  have hb := pad2c_chars n hn (':') hm
  have h58 : (':').toNat = 58 := rfl
  omega

/-- The character data of `hmsCore`. -/
theorem hmsCore_data (r : ℕ) :
    (hmsCore r).data =
      natDigits (r / 3600) ++ ':' :: (pad2c (r % 3600 / 60) ++ ':' :: pad2c (r % 60)) := by
  unfold hmsCore natStr pad2
  rw [String.data_append, String.data_append, String.data_append, String.data_append]
  simp

/-- Splitting two equal lists at the first occurrence of a marker absent
from the prefixes. -/
theorem split_at_first_marker {m : Char} :
    ∀ (as cs bs ds : List Char), m ∉ as → m ∉ cs →
      as ++ m :: bs = cs ++ m :: ds → as = cs ∧ bs = ds := by
  intro as
  induction as with
  | nil =>
    intro cs bs ds _ hcs h
    cases cs with
    | nil => simpa using h
    | cons c cs' =>
      simp only [List.nil_append, List.cons_append, List.cons.injEq] at h
      exact absurd (h.1 ▸ List.mem_cons_self c cs') hcs
  | cons a as' ih =>
    intro cs bs ds has hcs h
    cases cs with
    | nil =>
      simp only [List.cons_append, List.nil_append, List.cons.injEq] at h
      exact absurd (h.1 ▸ List.mem_cons_self a as') has
    | cons c cs' =>
      simp only [List.cons_append, List.cons.injEq] at h
      obtain ⟨hac, htail⟩ := h
      have h2 := ih cs' bs ds (fun hm => has (List.mem_cons_of_mem _ hm))
        (fun hm => hcs (List.mem_cons_of_mem _ hm)) htail
      exact ⟨by rw [hac, h2.1], h2.2⟩

/-- `hmsCore` is injective on within-day remainders. -/
theorem hmsCore_inj : ∀ r1, r1 < 86400 → ∀ r2, r2 < 86400 →
    hmsCore r1 = hmsCore r2 → r1 = r2 := by
  intro r1 h1 r2 h2 h
  have hd := congrArg String.data h
  rw [hmsCore_data, hmsCore_data] at hd
  have hs1 := split_at_first_marker _ _ _ _
    (colon_not_mem_natDigits (r1 / 3600)) (colon_not_mem_natDigits (r2 / 3600)) hd
  have hhh : r1 / 3600 = r2 / 3600 := natDigits_inj hs1.1
  have hmm1 : r1 % 3600 / 60 < 100 := by
    have := Nat.mod_lt r1 (show 0 < 3600 by norm_num)
    omega
  have hmm2 : r2 % 3600 / 60 < 100 := by
    have := Nat.mod_lt r2 (show 0 < 3600 by norm_num)
    omega
  have hs2 := split_at_first_marker _ _ _ _
    (colon_not_mem_pad2c hmm1) (colon_not_mem_pad2c hmm2) hs1.2
  have hmm : r1 % 3600 / 60 = r2 % 3600 / 60 := pad2c_inj _ hmm1 _ hmm2 hs2.1
  have hss : r1 % 60 = r2 % 60 :=
    pad2c_inj _ (by omega : r1 % 60 < 100) _ (by omega : r2 % 60 < 100) hs2.2
  have e1 : r1 % 3600 % 60 = r1 % 60 := Nat.mod_mod_of_dvd r1 (by norm_num)
  have e2 : r2 % 3600 % 60 = r2 % 60 := Nat.mod_mod_of_dvd r2 (by norm_num)
  have d1 := Nat.div_add_mod r1 3600
  have d2 := Nat.div_add_mod r2 3600
  have d3 := Nat.div_add_mod (r1 % 3600) 60
  have d4 := Nat.div_add_mod (r2 % 3600) 60
  omega

/-- `hmsCore` contains no space character. -/
theorem space_not_mem_hmsCore (r : ℕ) : (' ') ∉ (hmsCore r).data := by
  rw [hmsCore_data]
  intro hm
  have hmm : r % 3600 / 60 < 100 := by
    have := Nat.mod_lt r (show 0 < 3600 by norm_num)
    omega
  have hss : r % 60 < 100 := by omega
  have h32 : (' ').toNat = 32 := rfl
  simp only [List.mem_append, List.mem_cons] at hm
  rcases hm with hm | hm | hm | hm | hm
  · have := natDigits_chars hm
    omega
  · exact absurd hm (by decide)
  · have := pad2c_chars _ hmm _ hm
    omega
  · exact absurd hm (by decide)
  · have := pad2c_chars _ hss _ hm
    omega

/-- A day-prefixed timedelta string contains a space. -/
theorem space_mem_dayTail (d r : ℕ) :
    (' ') ∈ ((natStr d ++ (if d = 1 then " day, " else " days, ")) ++ hmsCore r).data := by
  rw [String.data_append, String.data_append]
  by_cases hd : d = 1 <;> simp [hd]

/-- `str(timedelta)` is injective on non-negative whole-second values:
distinct integer seconds always get distinct labels. -/
theorem timedeltaNat_inj : ∀ m n : ℕ,
    timedeltaStr (m : ℤ) = timedeltaStr (n : ℤ) → m = n := by
  have hday : (" day, " : String).data = ' ' :: ['d', 'a', 'y', ',', ' '] := rfl
  have hdays : (" days, " : String).data = ' ' :: ['d', 'a', 'y', 's', ',', ' '] := rfl
  intro m n h
  rw [timedeltaStr_natCast, timedeltaStr_natCast] at h
  by_cases hm0 : m / 86400 = 0 <;> by_cases hn0 : n / 86400 = 0
  · rw [if_pos hm0, if_pos hn0, empty_append_str, empty_append_str] at h
    have hr := hmsCore_inj (m % 86400) (Nat.mod_lt m (by norm_num))
      (n % 86400) (Nat.mod_lt n (by norm_num)) h
    have d1 := Nat.div_add_mod m 86400
    have d2 := Nat.div_add_mod n 86400
    omega
  · exfalso
    rw [if_pos hm0, empty_append_str, if_neg hn0] at h
    have hd := congrArg String.data h
    have hsp := space_mem_dayTail (n / 86400) (n % 86400)
    rw [← hd] at hsp
    exact space_not_mem_hmsCore (m % 86400) hsp
  · exfalso
    rw [if_neg hm0, if_pos hn0, empty_append_str] at h
    have hd := congrArg String.data h
    have hsp := space_mem_dayTail (m / 86400) (m % 86400)
    rw [hd] at hsp
    exact space_not_mem_hmsCore (n % 86400) hsp
  · rw [if_neg hm0, if_neg hn0] at h
    have hd := congrArg String.data h
    rw [String.data_append, String.data_append, String.data_append,
      String.data_append] at hd
    have hnat1 : (natStr (m / 86400)).data = natDigits (m / 86400) := rfl
    have hnat2 : (natStr (n / 86400)).data = natDigits (n / 86400) := rfl
    rw [hnat1, hnat2] at hd
    by_cases hm1 : m / 86400 = 1 <;> by_cases hn1 : n / 86400 = 1
    all_goals
      first
      | (rw [if_pos hm1, if_pos hn1, hday] at hd)
      | (rw [if_pos hm1, if_neg hn1, hday, hdays] at hd)
      | (rw [if_neg hm1, if_pos hn1, hdays, hday] at hd)
      | (rw [if_neg hm1, if_neg hn1, hdays] at hd)
    all_goals
      rw [List.append_assoc, List.cons_append, List.append_assoc,
        List.cons_append] at hd
    all_goals
      have hsplit := split_at_first_marker _ _ _ _
        (space_not_mem_natDigits (m / 86400)) (space_not_mem_natDigits (n / 86400)) hd
    all_goals
      have hdd : m / 86400 = n / 86400 := natDigits_inj hsplit.1
    · have hH : (hmsCore (m % 86400)).data = (hmsCore (n % 86400)).data := by
        have h2 := hsplit.2
        simpa using h2
      have hr := hmsCore_inj (m % 86400) (Nat.mod_lt m (by norm_num))
        (n % 86400) (Nat.mod_lt n (by norm_num)) (string_data_eq hH)
      have d1 := Nat.div_add_mod m 86400
      have d2 := Nat.div_add_mod n 86400
      omega
    · omega
    · omega
    · have hH : (hmsCore (m % 86400)).data = (hmsCore (n % 86400)).data := by
        have h2 := hsplit.2
        simpa using h2
      have hr := hmsCore_inj (m % 86400) (Nat.mod_lt m (by norm_num))
        (n % 86400) (Nat.mod_lt n (by norm_num)) (string_data_eq hH)
      have d1 := Nat.div_add_mod m 86400
      have d2 := Nat.div_add_mod n 86400
      omega

/-- `dictInsert` keeps the key list duplicate-free. -/
theorem dictInsert_keys_nodup {m : List (String × String)} {k v : String}
    (h : (m.map Prod.fst).Nodup) : ((dictInsert m k v).map Prod.fst).Nodup := by
  unfold dictInsert
  by_cases hp : m.any (fun e => e.1 == k)
  · rw [if_pos hp]
    have hkeys : (m.map (fun e => if e.1 == k then (e.1, v) else e)).map Prod.fst =
        m.map Prod.fst := by
      rw [List.map_map]
      apply List.map_congr_left
      intro e _
      by_cases he : e.1 = k <;> simp [he]
    rw [hkeys]
    exact h
  · rw [if_neg hp, List.map_append]
    have hk : k ∉ m.map Prod.fst := by
      intro hm
      rcases List.mem_map.mp hm with ⟨e, he, hek⟩
      apply hp
      rw [List.any_eq_true]
      exact ⟨e, he, by simp [hek]⟩
    simp [List.nodup_append, h, hk]

/-- The screenshot path of an integer second, as written by the code:
`screenshot_{k:06d}.jpg` in the temp screenshots directory. -/
def shotPathNat (k : ℕ) : String :=
  "screenshots/screenshot_" ++ pyFmt06d (k : ℤ) ++ ".jpg"

/-- A well-formed dict write: its label and path are both derived from
one integer second. -/
def okWrite (w : String × String) : Prop :=
  ∃ k : ℕ, w.1 = timedeltaStr (k : ℤ) ∧ w.2 = shotPathNat k

/-- Two well-formed writes with the same label carry the same path. -/
theorem okWrite_unique {w1 w2 : String × String} (h1 : okWrite w1) (h2 : okWrite w2)
    (hk : w1.1 = w2.1) : w1.2 = w2.2 := by
  rcases h1 with ⟨k1, hl1, hp1⟩
  rcases h2 with ⟨k2, hl2, hp2⟩
  have hkk : k1 = k2 := timedeltaNat_inj k1 k2 (by rw [← hl1, ← hl2]; exact hk)
  rw [hp1, hp2, hkk]

/-- The C4 invariant: all recorded dict writes are well formed and the
screenshots dict has duplicate-free keys. -/
def WritesGood (st : PVState) : Prop :=
  (∀ w ∈ st.writes, okWrite w) ∧ (st.screenshots.map Prod.fst).Nodup

/-- `processSegment` preserves the C4 invariant (for non-negative
absolute offsets). -/
theorem processSegment_writes_good (interval : ℕ) (t : ℚ) (st : PVState) (s : Seg)
    (hnn : 0 ≤ s.start + t) (h : WritesGood st) :
    WritesGood (processSegment interval t st s) := by
  by_cases htext : pyStrip s.text = ""
  · rw [processSegment_empty interval t st s htext]
    exact h
  · by_cases hc : shouldCapture (s.start + t) interval
    · cases hsk : s.shotOk
      · rw [processSegment_capture_fail interval t st s htext hc hsk]
        exact h
      · rw [processSegment_capture_ok interval t st s htext hc hsk]
        constructor
        · intro w hw
          rcases List.mem_append.mp hw with hw | hw
          · exact h.1 w hw
          · rw [List.mem_singleton] at hw
            subst hw
            have hfl : pyInt (s.start + t) = ((pyInt (s.start + t)).toNat : ℤ) := by
              rw [pyInt_of_nonneg hnn]
              have := Int.floor_nonneg.mpr hnn
              omega
            refine ⟨(pyInt (s.start + t)).toNat, ?_, ?_⟩
            · show format_timestamp (s.start + t) = _
              unfold format_timestamp
              rw [← hfl]
            · show shotPath (s.start + t) = _
              unfold shotPath shotPathNat
              rw [← hfl]
        · exact dictInsert_keys_nodup h.2
    · rw [processSegment_no_capture interval t st s htext (by simpa using hc)]
      exact h

/-- `processChunk` preserves the C4 invariant when the chunk's segments
have non-negative relative offsets. -/
theorem processChunk_writes_good (chunkDur interval : ℕ) (p : ℚ) (st : PVState)
    (ic : ℕ × Option (List Seg)) (hQ : ∀ s ∈ ic.2.getD [], 0 ≤ s.start)
    (h : WritesGood st) : WritesGood (processChunk chunkDur interval p st ic) := by
  rcases ic with ⟨i, oc⟩
  cases oc with
  | none => exact h
  | some segs =>
    exact foldl_invariant _ WritesGood (fun s : Seg => 0 ≤ s.start) segs
      { st with progress := st.progress ++ [25 + (i : ℚ) * p] } h
      (fun a ha => hQ a ha)
      (fun st' s hst' hs => processSegment_writes_good interval _ st' s
        (by
          have hst : (0 : ℚ) ≤ (i : ℚ) * (chunkDur : ℚ) := by positivity
          linarith) hst')

/-- C4 as amended.  Within one job (with the offsets the speech model
reports, all non-negative) at most one screenshot file is associated
with any timestamp label: every pair of dict writes that share a label
write the identical path, and the final screenshots mapping holds at
most one entry per label.  (A later same-label segment does re-trigger a
capture — see the counterexample — but the overwrite is harmless.) -/
theorem screenshot_label_unique_path (job : String) (chunks : List (Option (List Seg)))
    (chunkDur interval : ℕ) (copyOk : String → Bool)
    (hnn : ∀ c ∈ chunks, ∀ s ∈ c.getD [], 0 ≤ s.start) :
    (∀ w1 ∈ (process_video job chunks chunkDur interval copyOk).writes,
      ∀ w2 ∈ (process_video job chunks chunkDur interval copyOk).writes,
        w1.1 = w2.1 → w1.2 = w2.2)
    ∧ ((process_video job chunks chunkDur interval copyOk).screenshots.map
        Prod.fst).Nodup := by
  have hfold : WritesGood ((chunks.enum).foldl
      (processChunk chunkDur interval
        (if chunks.length > 0 then 70 / (chunks.length : ℚ) else 0))
      ⟨[], [], [], [], [0, 5, 10, 15, 20]⟩) := by
    refine foldl_invariant _ WritesGood
      (fun ic : ℕ × Option (List Seg) => ∀ s ∈ ic.2.getD [], 0 ≤ s.start)
      chunks.enum _ ⟨(by intro w hw; cases hw), by simp⟩ ?_
      (fun st ic hst hq => processChunk_writes_good chunkDur interval _ st ic hq hst)
    intro ic hic
    have hsnd : ic.2 ∈ chunks := by
      have h1 : ic.2 ∈ chunks.enum.map Prod.snd := List.mem_map_of_mem Prod.snd hic
      rwa [List.enum_map_snd] at h1
    exact hnn ic.2 hsnd
  constructor
  · intro w1 hw1 w2 hw2 hk
    have hwr : (process_video job chunks chunkDur interval copyOk).writes =
        ((chunks.enum).foldl
          (processChunk chunkDur interval
            (if chunks.length > 0 then 70 / (chunks.length : ℚ) else 0))
          ⟨[], [], [], [], [0, 5, 10, 15, 20]⟩).writes := rfl
    rw [hwr] at hw1 hw2
    exact okWrite_unique (hfold.1 w1 hw1) (hfold.1 w2 hw2) hk
  · have hscr : (process_video job chunks chunkDur interval copyOk).screenshots =
        (((chunks.enum).foldl
          (processChunk chunkDur interval
            (if chunks.length > 0 then 70 / (chunks.length : ℚ) else 0))
          ⟨[], [], [], [], [0, 5, 10, 15, 20]⟩).screenshots.filter
            (fun e => copyOk e.1)).map
          (fun e => (e.1, "output/" ++ job ++ "/" ++ e.2.drop 12)) := rfl
    rw [hscr]
    have hkeys : ((((chunks.enum).foldl
        (processChunk chunkDur interval
          (if chunks.length > 0 then 70 / (chunks.length : ℚ) else 0))
        ⟨[], [], [], [], [0, 5, 10, 15, 20]⟩).screenshots.filter
          (fun e => copyOk e.1)).map
        (fun e => (e.1, "output/" ++ job ++ "/" ++ e.2.drop 12))).map Prod.fst =
        (((chunks.enum).foldl
        (processChunk chunkDur interval
          (if chunks.length > 0 then 70 / (chunks.length : ℚ) else 0))
        ⟨[], [], [], [], [0, 5, 10, 15, 20]⟩).screenshots.filter
          (fun e => copyOk e.1)).map Prod.fst := by
      rw [List.map_map]
      rfl
    rw [hkeys]
    exact hfold.2.sublist (List.Sublist.map Prod.fst (List.filter_sublist _))

/-- C4 counterexample.  Two segments starting at 30.2s and 30.9s (interval
30) share the integer second 30 and hence the label `0:00:30`.  After the
first segment's capture the label is already present in the screenshots
map, yet the second segment triggers a second frame capture and a second
dict write (refuting "no second frame capture is triggered" /
insert-if-absent semantics); the map still holds a single entry because
the overwriting path is identical. -/
theorem screenshot_recapture_same_label :
    (process_video "j" [some [⟨151/5, "a", true⟩, ⟨309/10, "b", true⟩]] 300 30
      (fun _ => true)).attempts = ["0:00:30", "0:00:30"]
    ∧ (process_video "j" [some [⟨151/5, "a", true⟩, ⟨309/10, "b", true⟩]] 300 30
        (fun _ => true)).writes =
      [("0:00:30", "screenshots/screenshot_000030.jpg"),
       ("0:00:30", "screenshots/screenshot_000030.jpg")]
    ∧ (process_video "j" [some [⟨151/5, "a", true⟩, ⟨309/10, "b", true⟩]] 300 30
        (fun _ => true)).screenshots =
      [("0:00:30", "output/j/screenshot_000030.jpg")] := by
  have hp1 : pyInt ((151 / 5 : ℚ) + ((0 : ℕ) : ℚ) * ((300 : ℕ) : ℚ)) = 30 := by
    rw [show ((151 / 5 : ℚ) + ((0 : ℕ) : ℚ) * ((300 : ℕ) : ℚ)) = 151 / 5 by norm_num]
    rw [pyInt_of_nonneg (by norm_num)]
    norm_num
  have hp2 : pyInt ((309 / 10 : ℚ) + ((0 : ℕ) : ℚ) * ((300 : ℕ) : ℚ)) = 30 := by
    rw [show ((309 / 10 : ℚ) + ((0 : ℕ) : ℚ) * ((300 : ℕ) : ℚ)) = 309 / 10 by norm_num]
    rw [pyInt_of_nonneg (by norm_num)]
    norm_num
  have hc1 : shouldCapture ((151 / 5 : ℚ) + ((0 : ℕ) : ℚ) * ((300 : ℕ) : ℚ)) 30 = true := by
    unfold shouldCapture; rw [hp1]; decide
  have hc2 : shouldCapture ((309 / 10 : ℚ) + ((0 : ℕ) : ℚ) * ((300 : ℕ) : ℚ)) 30 = true := by
    unfold shouldCapture; rw [hp2]; decide
  have hl1 : format_timestamp ((151 / 5 : ℚ) + ((0 : ℕ) : ℚ) * ((300 : ℕ) : ℚ)) =
      "0:00:30" := by
    unfold format_timestamp; rw [hp1]; decide
  have hl2 : format_timestamp ((309 / 10 : ℚ) + ((0 : ℕ) : ℚ) * ((300 : ℕ) : ℚ)) =
      "0:00:30" := by
    unfold format_timestamp; rw [hp2]; decide
  have hs1 : shotPath ((151 / 5 : ℚ) + ((0 : ℕ) : ℚ) * ((300 : ℕ) : ℚ)) =
      "screenshots/screenshot_000030.jpg" := by
    unfold shotPath; rw [hp1]; decide
  have hs2 : shotPath ((309 / 10 : ℚ) + ((0 : ℕ) : ℚ) * ((300 : ℕ) : ℚ)) =
      "screenshots/screenshot_000030.jpg" := by
    unfold shotPath; rw [hp2]; decide
  have henum : ([some [⟨151/5, "a", true⟩, ⟨309/10, "b", true⟩]] :
      List (Option (List Seg))).enum =
      [(0, some [⟨151/5, "a", true⟩, ⟨309/10, "b", true⟩])] := rfl
  simp only [process_video, henum, List.foldl_cons, List.foldl_nil, processChunk]
  rw [processSegment_capture_ok 30 _ _ ⟨151/5, "a", true⟩ (by decide) hc1 rfl]
  rw [processSegment_capture_ok 30 _ _ ⟨309/10, "b", true⟩ (by decide) hc2 rfl]
  simp only [hl1, hl2, hs1, hs2]
  exact ⟨rfl, rfl, rfl⟩

/-- Witness for C4's amended statement at the same concrete run. -/
theorem screenshot_label_unique_path_witness :
    (∀ w1 ∈ (process_video "j" [some [⟨151/5, "a", true⟩, ⟨309/10, "b", true⟩]]
        300 30 (fun _ => true)).writes,
      ∀ w2 ∈ (process_video "j" [some [⟨151/5, "a", true⟩, ⟨309/10, "b", true⟩]]
        300 30 (fun _ => true)).writes,
        w1.1 = w2.1 → w1.2 = w2.2)
    ∧ ((process_video "j" [some [⟨151/5, "a", true⟩, ⟨309/10, "b", true⟩]]
        300 30 (fun _ => true)).screenshots.map Prod.fst).Nodup :=
  screenshot_label_unique_path "j" _ 300 30 _ (by
    intro c hc s hs
    rw [List.mem_singleton] at hc
    subst hc
    simp only [Option.getD_some, List.mem_cons, List.mem_singleton] at hs
    rcases hs with h | h | h
    · rw [h]; norm_num
    · rw [h]; norm_num
    · cases h)

/- ### C9: plain-text transcript round trip -/

/-- Rebuilding a string from its data is the identity. -/
theorem string_mk_data (s : String) : String.mk s.data = s := by cases s; rfl

/-- A label free of `]` is read back exactly up to the closing bracket. -/
theorem readLabel_append : ∀ (ts : List Char), (']') ∉ ts →
    ∀ r, readLabel (ts ++ ']' :: r) = some (ts, r) := by
  intro ts
  induction ts with
  | nil => intro _ r; simp [readLabel]
  | cons c ts' ih =>
    intro hmem r
    have hc : ¬ c = ']' := fun h => hmem (h ▸ List.mem_cons_self c ts')
    simp only [List.cons_append, readLabel, if_neg hc, List.append_eq]
    rw [ih (fun h => hmem (List.mem_cons_of_mem _ h)) r]
    rfl

/-- `noBlank` restricts to the tail. -/
theorem noBlank_tail : ∀ {a : Char} {l : List Char},
    noBlank (a :: l) = true → noBlank l = true := by
  intro a l h
  cases l with
  | nil => rfl
  | cons b l' =>
    simp only [noBlank, Bool.and_eq_true] at h
    exact h.2

/-- A text with no blank line (and not ending in a newline) is read back
exactly up to the appended blank line. -/
theorem readText_append : ∀ (tx : List Char), noBlank (tx ++ ['\n']) = true →
    ∀ r, readText (tx ++ '\n' :: '\n' :: r) = some (tx, r) := by
  intro tx
  induction tx with
  | nil => intro _ r; simp [readText]
  | cons c tx' ih =>
    intro hb r
    cases tx' with
    | nil =>
      have hc : ¬(c = '\n') := by
        intro hcc
        subst hcc
        simp [noBlank] at hb
      simp only [List.cons_append, List.nil_append, readText]
      rw [if_neg (fun hpair => hc hpair.1)]
      simp
    | cons c2 tx'' =>
      have hcc : ¬(c = '\n' ∧ c2 = '\n') := by
        rintro ⟨h1, h2⟩
        subst h1
        subst h2
        simp [noBlank] at hb
      have hb' : noBlank ((c2 :: tx'') ++ ['\n']) = true := by
        have h := noBlank_tail (a := c) (l := (c2 :: tx'') ++ ['\n'])
        apply h
        simpa using hb
      simp only [List.cons_append, readText, List.append_eq]
      rw [if_neg hcc]
      have hih := ih hb' r
      simp only [List.cons_append] at hih
      rw [hih]
      rfl

/-- The rendered transcript's character data. -/
theorem save_transcript_data : ∀ (pairs : List (String × String)) (acc : String),
    (pairs.foldl (fun acc e => acc ++ "[" ++ e.1 ++ "] " ++ e.2 ++ "\n\n") acc).data =
      acc.data ++ renderData pairs := by
  intro pairs
  induction pairs with
  | nil => intro acc; simp [renderData]
  | cons e rest ih =>
    intro acc
    rw [List.foldl_cons, ih]
    simp only [renderData, String.data_append]
    simp [List.append_assoc]

/-- Parsing the rendered character data recovers the pair data, given
well-formed labels and texts. -/
theorem parseEntriesFuel_renderData :
    ∀ (pairs : List (String × String)) (fuel : ℕ), pairs.length ≤ fuel →
      (∀ p ∈ pairs, (']') ∉ p.1.data ∧ ('\n') ∉ p.1.data ∧
        noBlank (p.2.data ++ ['\n']) = true) →
      parseEntriesFuel fuel (renderData pairs) =
        some (pairs.map fun p => (p.1.data, p.2.data)) := by
  intro pairs
  induction pairs with
  | nil =>
    intro fuel _ _
    cases fuel <;> rfl
  | cons e rest ih =>
    intro fuel hlen hcond
    cases fuel with
    | zero => simp at hlen
    | succ f =>
      obtain ⟨hbr, _, hblank⟩ := hcond e (List.mem_cons_self _ _)
      simp only [renderData, parseEntriesFuel, eq_self_iff_true, if_true,
        readLabel_append e.1.data hbr, readText_append e.2.data hblank,
        ih f (by simpa using hlen) (fun p hp => hcond p (List.mem_cons_of_mem _ hp))]
      simp

/-- The rendered data is at least one character per entry, so its length
bounds the entry count (the parser's fuel). -/
theorem renderData_length_ge :
    ∀ pairs : List (String × String), pairs.length ≤ (renderData pairs).length := by
  intro pairs
  induction pairs with
  | nil => simp [renderData]
  | cons e rest ih =>
    simp only [renderData, List.length_cons, List.length_append]
    omega

/-- C9 as amended.  Rendering a transcript with the plain-text writer
and parsing it back by splitting on blank-line-delimited
`[timestamp] text` blocks recovers the original ordered pair sequence,
provided each label contains no `]` and no newline and each text
contains no blank line and does not end with a newline (all labels the
pipeline produces and all segment texts satisfy this; arbitrary texts
with embedded blank lines do not — see the counterexample). -/
theorem save_transcript_roundtrip (pairs : List (String × String))
    (hcond : ∀ p ∈ pairs, (']') ∉ p.1.data ∧ ('\n') ∉ p.1.data ∧
      noBlank (p.2.data ++ ['\n']) = true) :
    parseTranscript (save_transcript_to_text pairs) = some pairs := by
  unfold parseTranscript
  have hdata : (save_transcript_to_text pairs).data = renderData pairs := by
    have h := save_transcript_data pairs ""
    simpa [save_transcript_to_text] using h
  rw [hdata]
  rw [parseEntriesFuel_renderData pairs (renderData pairs).length
    (renderData_length_ge pairs) hcond]
  simp only [Option.map_some', List.map_map]
  congr 1
  conv_rhs => rw [← List.map_id pairs]
  apply List.map_congr_left
  intro p _
  cases p with
  | mk a b => simp [string_mk_data]

/-- C9 counterexample.  A text containing a blank line breaks the round
trip: the written file splits into a malformed extra block, so parsing
fails instead of recovering the original pair. -/
theorem transcript_roundtrip_blank_counterexample :
    parseTranscript (save_transcript_to_text [("0:00:00", "a\n\nb")]) = none
    ∧ parseTranscript (save_transcript_to_text [("0:00:00", "a\n\nb")]) ≠
        some [("0:00:00", "a\n\nb")] := by
  have h : parseTranscript (save_transcript_to_text [("0:00:00", "a\n\nb")]) = none := by
    decide
  exact ⟨h, by rw [h]; simp⟩

/-- Witness for C9's amended statement on a two-entry transcript. -/
theorem save_transcript_roundtrip_witness :
    parseTranscript (save_transcript_to_text
      [("0:00:05", "hello"), ("0:01:03", "world x")]) =
      some [("0:00:05", "hello"), ("0:01:03", "world x")] := by
  apply save_transcript_roundtrip
  decide
